import Mathlib

/-!
Verification of the scheduling / synchronization core of
`src/bindings/gumjs/gumv8platform.cpp` (frida-gum's V8 platform adapter).

The embedding models:

* the `GumV8MainContextOperation` and `GumV8ThreadPoolOperation` state
  machines (a `volatile bool completed` flag guarded by the platform lock,
  with a `GCond` completion signal; `Perform`, `Cancel`, `Await`);
* the GLib machinery they rely on: a `GSource` fires its callback at most
  once (`PerformMainContextOperation` returns `FALSE`), `g_source_destroy`
  prevents any later dispatch, `g_cond_signal` wakes exactly one waiting
  thread, `g_cond_wait` may wake spuriously (the code re-checks in a loop);
* the action sequences of each method body, used to check which mutations
  happen while `GumV8PlatformLocker` holds the platform lock;
* `GumV8Platform::ScheduleOnThreadPool[Delayed]`, `GetForegroundTaskRunner`,
  `GumV8ForegroundTaskRunner::PostIdleTask` / `Run (IdleTask *)`,
  `MonotonicallyIncreasingTime`, and `GumV8MemoryBackend`.

The abstract operation state `{Pending, Completed, Cancelled}` maps onto
the code as: `Pending` iff `completed = false`; a terminal label records
which of `Perform` / `Cancel` first set `completed` (later redundant
writes of `true` do not change the observable flag, so the state keeps its
first terminal label).
-/

/-- Abstract state of an operation: `completed = false` is `Pending`;
`completed = true` carries the label of the transition that set it. -/
inductive OpState where
  | Pending
  | Completed
  | Cancelled
deriving DecidableEq, Repr

/-- Writing `completed := true` with terminal label `t`: a no-op on an
already-terminal state (the flag is already `true`), otherwise the single
`Pending → t` transition. -/
def termOf (cur t : OpState) : OpState :=
  if cur = OpState.Pending then t else cur

/-- Program counter of one thread executing `Await ()`:
`beforeCheck` is about to evaluate `!completed` (loop head, lock held);
`waiting` is blocked in `g_cond_wait`; `returned` has left the loop. -/
inductive WaiterPc where
  | beforeCheck
  | waiting
  | returned
deriving DecidableEq, Repr

/-- Semantics of `g_cond_signal (&cond)`: exactly one waiting thread is
unblocked (if any thread is waiting); we wake the first one. -/
def wakeOne : List WaiterPc → List WaiterPc
  | [] => []
  | w :: ws =>
      if w = WaiterPc.waiting then WaiterPc.beforeCheck :: ws
      else w :: wakeOne ws

/-- Semantics of `g_cond_broadcast (&cond)`: every waiting thread is
unblocked. The code under verification never calls this; it is here to
state what the spec's "broadcast" would do. -/
def wakeAll (ws : List WaiterPc) : List WaiterPc :=
  ws.map fun w => if w = WaiterPc.waiting then WaiterPc.beforeCheck else w

/-- One loop iteration of `Await` for waiter `i`: evaluate `!completed`
(`done = (completed = true)`); if done, leave the loop (`returned`),
otherwise block in `g_cond_wait` (`waiting`). Applies only when waiter `i`
is at the loop head. -/
def checkW (i : Nat) (done : Bool) (ws : List WaiterPc) : List WaiterPc :=
  match ws.get? i with
  | some WaiterPc.beforeCheck =>
      ws.set i (if done then WaiterPc.returned else WaiterPc.waiting)
  | _ => ws

/-- Spurious wakeup of waiter `i` from `g_cond_wait` (allowed by GLib;
harmless because the loop re-checks `completed`). -/
def spuriousW (i : Nat) (ws : List WaiterPc) : List WaiterPc :=
  match ws.get? i with
  | some WaiterPc.waiting => ws.set i WaiterPc.beforeCheck
  | _ => ws

/-- State of one `GumV8MainContextOperation` together with its `GSource`:
`sourceAlive` = the source is attached, not yet dispatched and not yet
destroyed; `state` is the abstract completion state; `workCount` counts
invocations of `func`. -/
structure MCOp where
  sourceAlive : Bool
  state : OpState
  workCount : Nat
deriving DecidableEq, Repr

/-- A main-context operation plus the threads currently inside `Await`. -/
structure MCSys where
  op : MCOp
  waiters : List WaiterPc
deriving DecidableEq, Repr

/-- Freshly scheduled operation (`ScheduleOnJSThreadDelayed`): source
attached, `completed = false`, `func` not yet run, `n` awaiting threads at
the loop head. -/
def mcInit (n : Nat) : MCSys :=
  ⟨⟨true, OpState.Pending, 0⟩, List.replicate n WaiterPc.beforeCheck⟩

/-- Events that can happen to a main-context operation system. -/
inductive MCLabel where
  | fire
  | cancel
  | check (i : Nat) (done : Bool)
  | spurious (i : Nat)
deriving DecidableEq, Repr

/-- One atomic event of the main-context system.

`fire`: the GLib source dispatches `PerformMainContextOperation`, which
calls `Perform ()`: runs `func`, then under the lock sets `completed` and
`g_cond_signal`s; the callback returns `FALSE` so the source never fires
again (`sourceAlive := false`). Only possible while the source is alive.

`cancel`: `Cancel ()`: `g_source_destroy (source)` (so the source can
never fire afterwards), then under the lock sets `completed` and signals.
Callable at any time by a handle holder.

`check i done`: one `Await` loop iteration of waiter `i`; faithful only
when `done` matches the operation's flag, so `mcApply` forces
`done = (state ≠ Pending)`.

`spurious i`: spurious wakeup of waiter `i`. -/
def mcApply : MCLabel → MCSys → MCSys
  | MCLabel.fire, s =>
      if s.op.sourceAlive then
        ⟨⟨false, termOf s.op.state OpState.Completed, s.op.workCount + 1⟩,
          wakeOne s.waiters⟩
      else s
  | MCLabel.cancel, s =>
      ⟨⟨false, termOf s.op.state OpState.Cancelled, s.op.workCount⟩,
        wakeOne s.waiters⟩
  | MCLabel.check i _, s =>
      ⟨s.op, checkW i (decide (s.op.state ≠ OpState.Pending)) s.waiters⟩
  | MCLabel.spurious i, s =>
      ⟨s.op, spuriousW i s.waiters⟩

/-- Run a sequence of events. -/
def mcRun (ls : List MCLabel) (s : MCSys) : MCSys :=
  ls.foldl (fun t l => mcApply l t) s

/-- State of one `GumV8ThreadPoolOperation`: `jobPending` = the job handed
to `gum_script_scheduler_push_job_on_thread_pool` has not yet executed
(the pool runs each submitted job exactly once). -/
structure PoolOp where
  jobPending : Bool
  state : OpState
  workCount : Nat
deriving DecidableEq, Repr

/-- A thread-pool operation plus the threads currently inside `Await`. -/
structure PoolSys where
  op : PoolOp
  waiters : List WaiterPc
deriving DecidableEq, Repr

/-- Freshly scheduled pool operation (`ScheduleOnThreadPool`). -/
def poolInit (n : Nat) : PoolSys :=
  ⟨⟨true, OpState.Pending, 0⟩, List.replicate n WaiterPc.beforeCheck⟩

/-- Events that can happen to a thread-pool operation system. -/
inductive PoolLabel where
  | perform
  | cancel
  | check (i : Nat) (done : Bool)
  | spurious (i : Nat)
deriving DecidableEq, Repr

/-- One atomic event of the pool system. `perform`: a pool thread runs
`PerformThreadPoolOperation` → `Perform ()` (runs `func`, sets `completed`
under the lock, signals); happens once per submitted job. `cancel`:
`GumV8ThreadPoolOperation::Cancel ()` — its body is empty, so the state is
untouched. -/
def poolApply : PoolLabel → PoolSys → PoolSys
  | PoolLabel.perform, s =>
      if s.op.jobPending then
        ⟨⟨false, termOf s.op.state OpState.Completed, s.op.workCount + 1⟩,
          wakeOne s.waiters⟩
      else s
  | PoolLabel.cancel, s => s
  | PoolLabel.check i _, s =>
      ⟨s.op, checkW i (decide (s.op.state ≠ OpState.Pending)) s.waiters⟩
  | PoolLabel.spurious i, s =>
      ⟨s.op, spuriousW i s.waiters⟩

/-- Run a sequence of events on a pool operation system. -/
def poolRun (ls : List PoolLabel) (s : PoolSys) : PoolSys :=
  ls.foldl (fun t l => poolApply l t) s

theorem termOf_of_ne_pending {cur : OpState} (t : OpState)
    (h : cur ≠ OpState.Pending) : termOf cur t = cur := by
  simp [termOf, h]

theorem termOf_ne_pending {cur t : OpState} (h : t ≠ OpState.Pending) :
    termOf cur t ≠ OpState.Pending := by
  unfold termOf
  by_cases hc : cur = OpState.Pending <;> simp [hc, h]

theorem lt_length_of_get?_some {α : Type} {a : α} :
    ∀ {l : List α} {i : Nat}, l.get? i = some a → i < l.length := by
  intro l
  induction l with
  | nil => intro i h; simp [List.get?] at h
  | cons b t ih =>
    intro i h
    cases i with
    | zero => simp
    | succ j => exact Nat.succ_lt_succ (ih h)

theorem get?_set_self {α : Type} (v : α) :
    ∀ (l : List α) (i : Nat), i < l.length → (l.set i v).get? i = some v := by
  intro l
  induction l with
  | nil => intro i h; simp at h
  | cons b t ih =>
    intro i h
    cases i with
    | zero => rfl
    | succ j => exact ih j (Nat.lt_of_succ_lt_succ (by simpa using h))

theorem mem_of_mem_set {α : Type} {a v : α} :
    ∀ {l : List α} {i : Nat}, a ∈ l.set i v → a ∈ l ∨ a = v := by
  intro l
  induction l with
  | nil => intro i h; simp at h
  | cons b t ih =>
    intro i h
    cases i with
    | zero =>
      rcases List.mem_cons.mp h with h1 | h1
      · exact Or.inr h1
      · exact Or.inl (List.mem_cons_of_mem _ h1)
    | succ j =>
      rcases List.mem_cons.mp h with h1 | h1
      · exact Or.inl (h1 ▸ List.mem_cons_self _ _)
      · rcases ih h1 with h2 | h2
        · exact Or.inl (List.mem_cons_of_mem _ h2)
        · exact Or.inr h2

theorem mem_checkW {a : WaiterPc} {i : Nat} {done : Bool} {ws : List WaiterPc}
    (h : a ∈ checkW i done ws) :
    a ∈ ws ∨ a = (if done then WaiterPc.returned else WaiterPc.waiting) := by
  unfold checkW at h
  split at h
  · exact mem_of_mem_set h
  · exact Or.inl h

theorem mem_spuriousW {a : WaiterPc} {i : Nat} {ws : List WaiterPc}
    (h : a ∈ spuriousW i ws) : a ∈ ws ∨ a = WaiterPc.beforeCheck := by
  unfold spuriousW at h
  split at h
  · exact mem_of_mem_set h
  · exact Or.inl h

theorem mem_wakeOne {a : WaiterPc} :
    ∀ {ws : List WaiterPc}, a ∈ wakeOne ws → a ∈ ws ∨ a = WaiterPc.beforeCheck := by
  intro ws
  induction ws with
  | nil => intro h; simp [wakeOne] at h
  | cons w t ih =>
    intro h
    unfold wakeOne at h
    by_cases hw : w = WaiterPc.waiting
    · simp [hw] at h
      rcases h with h1 | h1
      · exact Or.inr h1
      · exact Or.inl (List.mem_cons_of_mem _ h1)
    · simp [hw] at h
      rcases h with h1 | h1
      · exact Or.inl (h1 ▸ List.mem_cons_self _ _)
      · rcases ih h1 with h2 | h2
        · exact Or.inl (List.mem_cons_of_mem _ h2)
        · exact Or.inr h2

theorem mcApply_state_absorb (l : MCLabel) (s : MCSys)
    (h : s.op.state ≠ OpState.Pending) :
    (mcApply l s).op.state = s.op.state := by
  cases l with
  | fire =>
    by_cases ha : s.op.sourceAlive <;>
      simp [mcApply, ha, termOf_of_ne_pending _ h]
  | cancel => simp [mcApply, termOf_of_ne_pending _ h]
  | check i d => rfl
  | spurious i => rfl

theorem mcRun_state_absorb (ls : List MCLabel) :
    ∀ (s : MCSys), s.op.state ≠ OpState.Pending →
      (mcRun ls s).op.state = s.op.state := by
  induction ls with
  | nil => intro s _; rfl
  | cons l t ih =>
    intro s h
    have h1 := mcApply_state_absorb l s h
    calc (mcRun (l :: t) s).op.state
        = (mcRun t (mcApply l s)).op.state := rfl
      _ = (mcApply l s).op.state := ih _ (by rw [h1]; exact h)
      _ = s.op.state := h1

theorem mcApply_state_cases (l : MCLabel) (s : MCSys) :
    (mcApply l s).op.state = s.op.state ∨
      (s.op.state = OpState.Pending ∧
        ((mcApply l s).op.state = OpState.Completed ∨
          (mcApply l s).op.state = OpState.Cancelled)) := by
  by_cases h : s.op.state = OpState.Pending
  · cases l with
    | fire =>
      by_cases ha : s.op.sourceAlive
      · exact Or.inr ⟨h, Or.inl (by simp [mcApply, ha, termOf, h])⟩
      · exact Or.inl (by simp [mcApply, ha])
    | cancel => exact Or.inr ⟨h, Or.inr (by simp [mcApply, termOf, h])⟩
    | check i d => exact Or.inl rfl
    | spurious i => exact Or.inl rfl
  · exact Or.inl (mcApply_state_absorb l s h)

/-- Consumable budget for `func` invocations of a main-context operation:
one invocation can still happen only while the source is alive. -/
def mcBudget (s : MCSys) : Nat :=
  s.op.workCount + (if s.op.sourceAlive then 1 else 0)

theorem mcApply_budget_le (l : MCLabel) (s : MCSys) :
    mcBudget (mcApply l s) ≤ mcBudget s := by
  cases l with
  | fire =>
    by_cases ha : s.op.sourceAlive <;> simp [mcApply, ha, mcBudget]
  | cancel =>
    by_cases ha : s.op.sourceAlive <;> simp [mcApply, ha, mcBudget]
  | check i d => exact Nat.le_refl _
  | spurious i => exact Nat.le_refl _

theorem mcRun_budget_le (ls : List MCLabel) :
    ∀ (s : MCSys), mcBudget (mcRun ls s) ≤ mcBudget s := by
  induction ls with
  | nil => intro s; exact Nat.le_refl _
  | cons l t ih =>
    intro s
    exact Nat.le_trans (ih (mcApply l s)) (mcApply_budget_le l s)

/-- Invariant tying the source to the flag: once the source is gone
(fired or destroyed), the operation is already terminal. -/
def mcAliveInv (s : MCSys) : Prop :=
  s.op.sourceAlive = false → s.op.state ≠ OpState.Pending

theorem mcApply_aliveInv (l : MCLabel) (s : MCSys) (h : mcAliveInv s) :
    mcAliveInv (mcApply l s) := by
  cases l with
  | fire =>
    by_cases ha : s.op.sourceAlive
    · intro _
      simp [mcApply, ha]
      exact termOf_ne_pending (by simp)
    · simpa [mcApply, ha] using h
  | cancel =>
    intro _
    simp [mcApply]
    exact termOf_ne_pending (by simp)
  | check i d => exact h
  | spurious i => exact h

theorem mcRun_aliveInv (ls : List MCLabel) :
    ∀ (s : MCSys), mcAliveInv s → mcAliveInv (mcRun ls s) := by
  induction ls with
  | nil => intro s h; exact h
  | cons l t ih => intro s h; exact ih _ (mcApply_aliveInv l s h)

theorem poolApply_state_absorb (l : PoolLabel) (s : PoolSys)
    (h : s.op.state ≠ OpState.Pending) :
    (poolApply l s).op.state = s.op.state := by
  cases l with
  | perform =>
    by_cases ha : s.op.jobPending <;>
      simp [poolApply, ha, termOf_of_ne_pending _ h]
  | cancel => rfl
  | check i d => rfl
  | spurious i => rfl

theorem poolRun_state_absorb (ls : List PoolLabel) :
    ∀ (s : PoolSys), s.op.state ≠ OpState.Pending →
      (poolRun ls s).op.state = s.op.state := by
  induction ls with
  | nil => intro s _; rfl
  | cons l t ih =>
    intro s h
    have h1 := poolApply_state_absorb l s h
    calc (poolRun (l :: t) s).op.state
        = (poolRun t (poolApply l s)).op.state := rfl
      _ = (poolApply l s).op.state := ih _ (by rw [h1]; exact h)
      _ = s.op.state := h1

theorem poolApply_state_cases (l : PoolLabel) (s : PoolSys) :
    (poolApply l s).op.state = s.op.state ∨
      (s.op.state = OpState.Pending ∧
        (poolApply l s).op.state = OpState.Completed) := by
  by_cases h : s.op.state = OpState.Pending
  · cases l with
    | perform =>
      by_cases ha : s.op.jobPending
      · exact Or.inr ⟨h, by simp [poolApply, ha, termOf, h]⟩
      · exact Or.inl (by simp [poolApply, ha])
    | cancel => exact Or.inl rfl
    | check i d => exact Or.inl rfl
    | spurious i => exact Or.inl rfl
  · exact Or.inl (poolApply_state_absorb l s h)

/-- Consumable budget for `func` invocations of a pool operation. -/
def poolBudget (s : PoolSys) : Nat :=
  s.op.workCount + (if s.op.jobPending then 1 else 0)

theorem poolApply_budget_le (l : PoolLabel) (s : PoolSys) :
    poolBudget (poolApply l s) ≤ poolBudget s := by
  cases l with
  | perform =>
    by_cases ha : s.op.jobPending <;> simp [poolApply, ha, poolBudget]
  | cancel => exact Nat.le_refl _
  | check i d => exact Nat.le_refl _
  | spurious i => exact Nat.le_refl _

theorem poolRun_budget_le (ls : List PoolLabel) :
    ∀ (s : PoolSys), poolBudget (poolRun ls s) ≤ poolBudget s := by
  induction ls with
  | nil => intro s; exact Nat.le_refl _
  | cons l t ih =>
    intro s
    exact Nat.le_trans (ih (poolApply l s)) (poolApply_budget_le l s)

/-- Invariant: once the pool job has run, the operation is terminal. -/
def poolAliveInv (s : PoolSys) : Prop :=
  s.op.jobPending = false → s.op.state ≠ OpState.Pending

theorem poolApply_aliveInv (l : PoolLabel) (s : PoolSys) (h : poolAliveInv s) :
    poolAliveInv (poolApply l s) := by
  cases l with
  | perform =>
    by_cases ha : s.op.jobPending
    · intro _
      simp [poolApply, ha]
      exact termOf_ne_pending (by simp)
    · simpa [poolApply, ha] using h
  | cancel => exact h
  | check i d => exact h
  | spurious i => exact h

theorem poolRun_aliveInv (ls : List PoolLabel) :
    ∀ (s : PoolSys), poolAliveInv s → poolAliveInv (poolRun ls s) := by
  induction ls with
  | nil => intro s h; exact h
  | cons l t ih => intro s h; exact ih _ (poolApply_aliveInv l s h)

/-- Soundness of `Await`: a waiter that has returned implies the flag is
set (the operation is terminal). -/
def mcGood (s : MCSys) : Prop :=
  WaiterPc.returned ∈ s.waiters → s.op.state ≠ OpState.Pending

theorem mcApply_good (l : MCLabel) (s : MCSys) (h : mcGood s) :
    mcGood (mcApply l s) := by
  cases l with
  | fire =>
    by_cases ha : s.op.sourceAlive
    · intro _
      simp [mcApply, ha]
      exact termOf_ne_pending (by simp)
    · simpa [mcApply, ha] using h
  | cancel =>
    intro _
    simp [mcApply]
    exact termOf_ne_pending (by simp)
  | check i d =>
    intro hm
    by_cases hp : s.op.state = OpState.Pending
    · simp only [mcApply, hp] at hm
      rcases mem_checkW hm with h1 | h1
      · exact absurd hp (h h1)
      · simp at h1
    · simpa [mcApply] using hp
  | spurious i =>
    intro hm
    simp only [mcApply] at hm
    rcases mem_spuriousW hm with h1 | h1
    · exact h h1
    · simp at h1

theorem mcRun_good (ls : List MCLabel) :
    ∀ (s : MCSys), mcGood s → mcGood (mcRun ls s) := by
  induction ls with
  | nil => intro s h; exact h
  | cons l t ih => intro s h; exact ih _ (mcApply_good l s h)

/-- Soundness of `Await` for the pool variant. -/
def poolGood (s : PoolSys) : Prop :=
  WaiterPc.returned ∈ s.waiters → s.op.state ≠ OpState.Pending

theorem poolApply_good (l : PoolLabel) (s : PoolSys) (h : poolGood s) :
    poolGood (poolApply l s) := by
  cases l with
  | perform =>
    by_cases ha : s.op.jobPending
    · intro _
      simp [poolApply, ha]
      exact termOf_ne_pending (by simp)
    · simpa [poolApply, ha] using h
  | cancel => exact h
  | check i d =>
    intro hm
    by_cases hp : s.op.state = OpState.Pending
    · simp only [poolApply, hp] at hm
      rcases mem_checkW hm with h1 | h1
      · exact absurd hp (h h1)
      · simp at h1
    · simpa [poolApply] using hp
  | spurious i =>
    intro hm
    simp only [poolApply] at hm
    rcases mem_spuriousW hm with h1 | h1
    · exact h h1
    · simp at h1

theorem poolRun_good (ls : List PoolLabel) :
    ∀ (s : PoolSys), poolGood s → poolGood (poolRun ls s) := by
  induction ls with
  | nil => intro s h; exact h
  | cons l t ih => intro s h; exact ih _ (poolApply_good l s h)

theorem mcInit_good (n : Nat) : mcGood (mcInit n) := by
  intro hm
  exfalso
  have := List.eq_of_mem_replicate hm
  simp at this

theorem poolInit_good (n : Nat) : poolGood (poolInit n) := by
  intro hm
  exfalso
  have := List.eq_of_mem_replicate hm
  simp at this

theorem mcRun_append (a b : List MCLabel) (s : MCSys) :
    mcRun (a ++ b) s = mcRun b (mcRun a s) := by
  simp [mcRun, List.foldl_append]

theorem poolRun_append (a b : List PoolLabel) (s : PoolSys) :
    poolRun (a ++ b) s = poolRun b (poolRun a s) := by
  simp [poolRun, List.foldl_append]

theorem mcInit_aliveInv (n : Nat) : mcAliveInv (mcInit n) := by
  intro h
  simp [mcInit] at h

theorem poolInit_aliveInv (n : Nat) : poolAliveInv (poolInit n) := by
  intro h
  simp [poolInit] at h

/-- If the host event loop delivers the source dispatch, or any holder
cancels, the main-context operation reaches a terminal state. -/
theorem mcRun_terminal_of_event (n : Nat) (ls : List MCLabel)
    (h : MCLabel.fire ∈ ls ∨ MCLabel.cancel ∈ ls) :
    (mcRun ls (mcInit n)).op.state ≠ OpState.Pending := by
  rcases h with h | h
  · rcases List.append_of_mem h with ⟨l1, l2, rfl⟩
    rw [mcRun_append]
    have hinv : mcAliveInv (mcRun l1 (mcInit n)) :=
      mcRun_aliveInv l1 _ (mcInit_aliveInv n)
    set s1 := mcRun l1 (mcInit n) with hs1
    have hterm : (mcApply MCLabel.fire s1).op.state ≠ OpState.Pending := by
      by_cases ha : s1.op.sourceAlive
      · simp [mcApply, ha]
        exact termOf_ne_pending (by simp)
      · have : mcApply MCLabel.fire s1 = s1 := by simp [mcApply, ha]
        rw [this]
        exact hinv (by simpa using ha)
    have habs := mcRun_state_absorb l2 (mcApply MCLabel.fire s1) hterm
    rw [show (MCLabel.fire :: l2) = [MCLabel.fire] ++ l2 from rfl,
      mcRun_append]
    simpa [mcRun] using habs ▸ hterm
  · rcases List.append_of_mem h with ⟨l1, l2, rfl⟩
    rw [mcRun_append]
    set s1 := mcRun l1 (mcInit n) with hs1
    have hterm : (mcApply MCLabel.cancel s1).op.state ≠ OpState.Pending := by
      simp [mcApply]
      exact termOf_ne_pending (by simp)
    have habs := mcRun_state_absorb l2 (mcApply MCLabel.cancel s1) hterm
    rw [show (MCLabel.cancel :: l2) = [MCLabel.cancel] ++ l2 from rfl,
      mcRun_append]
    simpa [mcRun] using habs ▸ hterm

/-- If a pool thread runs the submitted job, the pool operation reaches a
terminal state (cancel is irrelevant to this). -/
theorem poolRun_terminal_of_event (n : Nat) (ls : List PoolLabel)
    (h : PoolLabel.perform ∈ ls) :
    (poolRun ls (poolInit n)).op.state ≠ OpState.Pending := by
  rcases List.append_of_mem h with ⟨l1, l2, rfl⟩
  rw [poolRun_append]
  have hinv : poolAliveInv (poolRun l1 (poolInit n)) :=
    poolRun_aliveInv l1 _ (poolInit_aliveInv n)
  set s1 := poolRun l1 (poolInit n) with hs1
  have hterm : (poolApply PoolLabel.perform s1).op.state ≠ OpState.Pending := by
    by_cases ha : s1.op.jobPending
    · simp [poolApply, ha]
      exact termOf_ne_pending (by simp)
    · have : poolApply PoolLabel.perform s1 = s1 := by simp [poolApply, ha]
      rw [this]
      exact hinv (by simpa using ha)
  have habs := poolRun_state_absorb l2 (poolApply PoolLabel.perform s1) hterm
  rw [show (PoolLabel.perform :: l2) = [PoolLabel.perform] ++ l2 from rfl,
    poolRun_append]
  simpa [poolRun] using habs ▸ hterm

/-- C2: for every Operation (main-context or pool variant), each event
either leaves `state` unchanged or is the single `Pending → terminal`
transition; a terminal state is never left (so the transition happens at
most once, and — once the scheduler delivers the dispatch or a cancel —
exactly once); and `func` is invoked at most once. -/
theorem operation_single_transition_spec :
    (∀ (l : MCLabel) (s : MCSys),
        (mcApply l s).op.state = s.op.state ∨
          (s.op.state = OpState.Pending ∧
            ((mcApply l s).op.state = OpState.Completed ∨
              (mcApply l s).op.state = OpState.Cancelled))) ∧
    (∀ (n : Nat) (ls ls2 : List MCLabel),
        (mcRun ls (mcInit n)).op.state ≠ OpState.Pending →
          (mcRun (ls ++ ls2) (mcInit n)).op.state
            = (mcRun ls (mcInit n)).op.state) ∧
    (∀ (n : Nat) (ls : List MCLabel),
        (mcRun ls (mcInit n)).op.workCount ≤ 1) ∧
    (∀ (n : Nat) (ls : List MCLabel),
        MCLabel.fire ∈ ls ∨ MCLabel.cancel ∈ ls →
          (mcRun ls (mcInit n)).op.state ≠ OpState.Pending) ∧
    (∀ (l : PoolLabel) (s : PoolSys),
        (poolApply l s).op.state = s.op.state ∨
          (s.op.state = OpState.Pending ∧
            (poolApply l s).op.state = OpState.Completed)) ∧
    (∀ (n : Nat) (ls ls2 : List PoolLabel),
        (poolRun ls (poolInit n)).op.state ≠ OpState.Pending →
          (poolRun (ls ++ ls2) (poolInit n)).op.state
            = (poolRun ls (poolInit n)).op.state) ∧
    (∀ (n : Nat) (ls : List PoolLabel),
        (poolRun ls (poolInit n)).op.workCount ≤ 1) ∧
    (∀ (n : Nat) (ls : List PoolLabel),
        PoolLabel.perform ∈ ls →
          (poolRun ls (poolInit n)).op.state ≠ OpState.Pending) := by
  refine ⟨mcApply_state_cases, ?_, ?_, mcRun_terminal_of_event,
    poolApply_state_cases, ?_, ?_, poolRun_terminal_of_event⟩
  · intro n ls ls2 h
    rw [mcRun_append]
    exact mcRun_state_absorb ls2 _ h
  · intro n ls
    have h := mcRun_budget_le ls (mcInit n)
    have h0 : mcBudget (mcInit n) = 1 := by simp [mcBudget, mcInit]
    exact Nat.le_trans (Nat.le_add_right _ _) (h0 ▸ h)
  · intro n ls ls2 h
    rw [poolRun_append]
    exact poolRun_state_absorb ls2 _ h
  · intro n ls
    have h := poolRun_budget_le ls (poolInit n)
    have h0 : poolBudget (poolInit n) = 1 := by simp [poolBudget, poolInit]
    exact Nat.le_trans (Nat.le_add_right _ _) (h0 ▸ h)

/-- Witness instantiating `operation_single_transition_spec` at concrete
inputs, discharging its hypotheses there. -/
theorem operation_single_transition_spec_witness :
    (mcRun ([MCLabel.cancel] ++ [MCLabel.fire]) (mcInit 1)).op.state
      = (mcRun [MCLabel.cancel] (mcInit 1)).op.state ∧
    (mcRun [MCLabel.fire] (mcInit 1)).op.state ≠ OpState.Pending ∧
    (poolRun ([PoolLabel.perform] ++ [PoolLabel.cancel]) (poolInit 1)).op.state
      = (poolRun [PoolLabel.perform] (poolInit 1)).op.state ∧
    (poolRun [PoolLabel.perform] (poolInit 1)).op.state ≠ OpState.Pending :=
  ⟨operation_single_transition_spec.2.1 1 [MCLabel.cancel] [MCLabel.fire]
      (by decide),
    operation_single_transition_spec.2.2.2.1 1 [MCLabel.fire]
      (Or.inl (by decide)),
    operation_single_transition_spec.2.2.2.2.2.1 1 [PoolLabel.perform]
      [PoolLabel.cancel] (by decide),
    operation_single_transition_spec.2.2.2.2.2.2.2 1 [PoolLabel.perform]
      (by decide)⟩

/-- C3: `Await` never returns while the operation is still `Pending` (a
returned waiter implies the flag is set), and on an already-terminal
operation the single loop check returns at once, without ever blocking in
`g_cond_wait` — for both operation variants. -/
theorem await_terminal_spec :
    (∀ (n : Nat) (ls : List MCLabel),
        WaiterPc.returned ∈ (mcRun ls (mcInit n)).waiters →
          (mcRun ls (mcInit n)).op.state ≠ OpState.Pending) ∧
    (∀ (s : MCSys) (i : Nat) (d : Bool),
        s.op.state ≠ OpState.Pending →
        s.waiters.get? i = some WaiterPc.beforeCheck →
          (mcApply (MCLabel.check i d) s).waiters.get? i
            = some WaiterPc.returned) ∧
    (∀ (n : Nat) (ls : List PoolLabel),
        WaiterPc.returned ∈ (poolRun ls (poolInit n)).waiters →
          (poolRun ls (poolInit n)).op.state ≠ OpState.Pending) ∧
    (∀ (s : PoolSys) (i : Nat) (d : Bool),
        s.op.state ≠ OpState.Pending →
        s.waiters.get? i = some WaiterPc.beforeCheck →
          (poolApply (PoolLabel.check i d) s).waiters.get? i
            = some WaiterPc.returned) := by
  refine ⟨?_, ?_, ?_, ?_⟩
  · intro n ls
    exact mcRun_good ls (mcInit n) (mcInit_good n)
  · intro s i d hs hw
    show (checkW i (decide (s.op.state ≠ OpState.Pending)) s.waiters).get? i
      = some WaiterPc.returned
    have hd : decide (s.op.state ≠ OpState.Pending) = true :=
      decide_eq_true hs
    rw [hd]
    unfold checkW
    rw [hw]
    exact get?_set_self _ _ _ (lt_length_of_get?_some hw)
  · intro n ls
    exact poolRun_good ls (poolInit n) (poolInit_good n)
  · intro s i d hs hw
    show (checkW i (decide (s.op.state ≠ OpState.Pending)) s.waiters).get? i
      = some WaiterPc.returned
    have hd : decide (s.op.state ≠ OpState.Pending) = true :=
      decide_eq_true hs
    rw [hd]
    unfold checkW
    rw [hw]
    exact get?_set_self _ _ _ (lt_length_of_get?_some hw)

/-- Witness instantiating `await_terminal_spec` at concrete inputs. -/
theorem await_terminal_spec_witness :
    (mcRun [MCLabel.fire, MCLabel.check 0 true] (mcInit 1)).op.state
      ≠ OpState.Pending ∧
    (mcApply (MCLabel.check 0 true)
        ⟨⟨false, OpState.Completed, 1⟩, [WaiterPc.beforeCheck]⟩).waiters.get? 0
      = some WaiterPc.returned ∧
    (poolRun [PoolLabel.perform, PoolLabel.check 0 true]
        (poolInit 1)).op.state ≠ OpState.Pending ∧
    (poolApply (PoolLabel.check 0 true)
        ⟨⟨false, OpState.Cancelled, 0⟩, [WaiterPc.beforeCheck]⟩).waiters.get? 0
      = some WaiterPc.returned :=
  ⟨await_terminal_spec.1 1 [MCLabel.fire, MCLabel.check 0 true] (by decide),
    await_terminal_spec.2.1 ⟨⟨false, OpState.Completed, 1⟩,
      [WaiterPc.beforeCheck]⟩ 0 true (by decide) (by decide),
    await_terminal_spec.2.2.1 1 [PoolLabel.perform, PoolLabel.check 0 true]
      (by decide),
    await_terminal_spec.2.2.2 ⟨⟨false, OpState.Cancelled, 0⟩,
      [WaiterPc.beforeCheck]⟩ 0 true (by decide) (by decide)⟩

/-- C5: `GumV8ThreadPoolOperation::Cancel` is a no-op: it changes nothing
observable, and deleting any number of `cancel` events from a pool
operation's history leaves the final state (in particular whether and how
often `func` ran) unchanged. -/
theorem pool_cancel_noop_spec :
    (∀ (s : PoolSys), poolApply PoolLabel.cancel s = s) ∧
    (∀ (ls : List PoolLabel) (s : PoolSys),
        poolRun (ls.filter fun l => decide (l ≠ PoolLabel.cancel)) s
          = poolRun ls s) := by
  constructor
  · intro s
    rfl
  · intro ls
    induction ls with
    | nil => intro s; rfl
    | cons l t ih =>
      intro s
      by_cases h : l = PoolLabel.cancel
      · subst h
        have h1 : poolRun (PoolLabel.cancel :: t) s = poolRun t s := rfl
        have h2 : (PoolLabel.cancel :: t).filter
            (fun l => decide (l ≠ PoolLabel.cancel)) =
            t.filter fun l => decide (l ≠ PoolLabel.cancel) := by
          simp [List.filter]
        rw [h1, h2]
        exact ih s
      · have h2 : (l :: t).filter (fun l => decide (l ≠ PoolLabel.cancel)) =
            l :: t.filter fun l => decide (l ≠ PoolLabel.cancel) := by
          simp [List.filter, h]
        rw [h2]
        show poolRun (t.filter fun l => decide (l ≠ PoolLabel.cancel))
          (poolApply l s) = poolRun t (poolApply l s)
        exact ih (poolApply l s)


/-- Atomic actions appearing in the method bodies, in program order.
`lockAcquire` / `lockRelease` are the constructor / destructor of
`GumV8PlatformLocker` on the platform lock. -/
inductive PAct where
  | createSource
  | setPriority
  | lockAcquire
  | lockRelease
  | insertJsOp
  | eraseJsOp
  | setSourceCallback
  | attachSource
  | runWork
  | setCompleted
  | condSignal
  | destroySource
  | readRunnerMap
  | insertRunnerMap
  | pushPoolJob
deriving DecidableEq, Repr

/-- Body of `GumV8Platform::ScheduleOnJSThreadDelayed` (lines 344-365):
create the source, set its priority, insert the new operation into
`js_operations` under a `GumV8PlatformLocker`, then set the callback and
attach the source. -/
def scheduleOnJSThreadDelayedActions : List PAct :=
  [PAct.createSource, PAct.setPriority, PAct.lockAcquire,
    PAct.insertJsOp, PAct.lockRelease, PAct.setSourceCallback,
    PAct.attachSource]

/-- Body of `GumV8Platform::ReleaseMainContextOperation` (lines 401-414):
erase the operation from `js_operations` under a `GumV8PlatformLocker`. -/
def releaseMainContextOperationActions : List PAct :=
  [PAct.lockAcquire, PAct.eraseJsOp, PAct.lockRelease]

/-- Body of `GumV8MainContextOperation::Perform` (lines 549-557): run
`func`, then under a `GumV8PlatformLocker` set `completed = true` and
`g_cond_signal (&cond)`. -/
def mainPerformActions : List PAct :=
  [PAct.runWork, PAct.lockAcquire, PAct.setCompleted,
    PAct.condSignal, PAct.lockRelease]

/-- Body of `GumV8MainContextOperation::Cancel` (lines 559-567):
`g_source_destroy (source)`, then under a `GumV8PlatformLocker` set
`completed = true` and signal. -/
def mainCancelActions : List PAct :=
  [PAct.destroySource, PAct.lockAcquire, PAct.setCompleted,
    PAct.condSignal, PAct.lockRelease]

/-- Body of `GumV8ThreadPoolOperation::Perform` (lines 592-600): run
`func`, then under a `GumV8PlatformLocker` set `completed = true` and
signal. -/
def poolPerformActions : List PAct :=
  [PAct.runWork, PAct.lockAcquire, PAct.setCompleted,
    PAct.condSignal, PAct.lockRelease]

/-- Body of `GumV8ThreadPoolOperation::Cancel` (lines 602-605): empty. -/
def poolCancelActions : List PAct := []

/-- Body of `GumV8Platform::GetForegroundTaskRunner` (lines 438-449) on
the miss path: read `foreground_runners[isolate]`, find no runner, create
one and store it — with no `GumV8PlatformLocker` anywhere in the body. -/
def getForegroundTaskRunnerMissActions : List PAct :=
  [PAct.readRunnerMap, PAct.insertRunnerMap]

/-- Nesting depth of the platform lock after executing a list of
actions. -/
def lockDepth (as : List PAct) : Nat :=
  as.foldl
    (fun d a =>
      match a with
      | PAct.lockAcquire => d + 1
      | PAct.lockRelease => d - 1
      | _ => d) 0

/-- Checks that every action satisfying `isMut` occurs at a point where
the platform lock is held. -/
def mutationsLocked (isMut : PAct → Bool) (as : List PAct) : Bool :=
  (List.range as.length).all fun i =>
    match as.get? i with
    | some a => !isMut a || decide (0 < lockDepth (as.take i))
    | none => true

/-- Mutations of the state the spec says the platform lock guards: the
outstanding-operation set, completion flags, and the runner map. -/
def guardedMutation : PAct → Bool
  | PAct.insertJsOp => true
  | PAct.eraseJsOp => true
  | PAct.setCompleted => true
  | PAct.insertRunnerMap => true
  | _ => false

theorem wakeOne_count_of_mem :
    ∀ {ws : List WaiterPc}, WaiterPc.waiting ∈ ws →
      (wakeOne ws).count WaiterPc.waiting + 1 = ws.count WaiterPc.waiting := by
  intro ws
  induction ws with
  | nil => intro h; cases h
  | cons w t ih =>
    intro h
    by_cases hw : w = WaiterPc.waiting
    · subst hw
      simp [wakeOne, List.count_cons]
    · have ht : WaiterPc.waiting ∈ t := by
        rcases List.mem_cons.mp h with h1 | h1
        · exact absurd h1.symm hw
        · exact h1
      simp only [wakeOne, if_neg hw, List.count_cons]
      rw [← ih ht]
      by_cases he : w = WaiterPc.waiting
      · exact absurd he hw
      · simp [he]
      
theorem wakeOne_of_not_mem :
    ∀ {ws : List WaiterPc}, WaiterPc.waiting ∉ ws → wakeOne ws = ws := by
  intro ws
  induction ws with
  | nil => intro _; rfl
  | cons w t ih =>
    intro h
    have hw : w ≠ WaiterPc.waiting := by
      intro he
      exact h (he ▸ List.mem_cons_self _ _)
    have ht : WaiterPc.waiting ∉ t := fun hm => h (List.mem_cons_of_mem _ hm)
    simp [wakeOne, hw, ih ht]

/-- Counterexample to C4 as stated: `Perform` ends with `g_cond_signal`,
which wakes exactly one waiter — not a broadcast waking every thread
blocked in `Await`. With two blocked waiters, after the source fires
(running `Perform` to completion) the second waiter is still blocked. -/
theorem perform_signal_not_broadcast_cex :
    (mcApply MCLabel.fire
        ⟨⟨true, OpState.Pending, 0⟩,
          [WaiterPc.waiting, WaiterPc.waiting]⟩).waiters
      = [WaiterPc.beforeCheck, WaiterPc.waiting] ∧
    wakeOne [WaiterPc.waiting, WaiterPc.waiting]
      ≠ wakeAll [WaiterPc.waiting, WaiterPc.waiting] := by
  decide

/-- C4 (amended): for either variant, `Perform` runs `func` exactly once
and before the completion flag is set; the flag write and the signal
happen under the platform lock; the signal (`g_cond_signal`) wakes
exactly one blocked waiter when any is blocked, and is a no-op when none
is. -/
theorem perform_work_then_complete_spec :
    (mainPerformActions.count PAct.runWork = 1 ∧
      mainPerformActions.indexOf PAct.runWork
        < mainPerformActions.indexOf PAct.setCompleted ∧
      mainPerformActions.indexOf PAct.setCompleted
        < mainPerformActions.indexOf PAct.condSignal ∧
      mutationsLocked guardedMutation mainPerformActions = true ∧
      mutationsLocked (fun a => decide (a = PAct.condSignal))
        mainPerformActions = true) ∧
    (poolPerformActions.count PAct.runWork = 1 ∧
      poolPerformActions.indexOf PAct.runWork
        < poolPerformActions.indexOf PAct.setCompleted ∧
      poolPerformActions.indexOf PAct.setCompleted
        < poolPerformActions.indexOf PAct.condSignal ∧
      mutationsLocked guardedMutation poolPerformActions = true ∧
      mutationsLocked (fun a => decide (a = PAct.condSignal))
        poolPerformActions = true) ∧
    (∀ (s : MCSys), s.op.sourceAlive = true →
        (mcApply MCLabel.fire s).op.workCount = s.op.workCount + 1 ∧
        (mcApply MCLabel.fire s).op.state
          = termOf s.op.state OpState.Completed ∧
        (mcApply MCLabel.fire s).waiters = wakeOne s.waiters) ∧
    (∀ (s : PoolSys), s.op.jobPending = true →
        (poolApply PoolLabel.perform s).op.workCount = s.op.workCount + 1 ∧
        (poolApply PoolLabel.perform s).op.state
          = termOf s.op.state OpState.Completed ∧
        (poolApply PoolLabel.perform s).waiters = wakeOne s.waiters) ∧
    (∀ (ws : List WaiterPc), WaiterPc.waiting ∈ ws →
        (wakeOne ws).count WaiterPc.waiting + 1
          = ws.count WaiterPc.waiting) ∧
    (∀ (ws : List WaiterPc), WaiterPc.waiting ∉ ws → wakeOne ws = ws) := by
  refine ⟨by decide, by decide, ?_, ?_, ?_, ?_⟩
  · intro s hs
    refine ⟨?_, ?_, ?_⟩ <;> simp [mcApply, hs]
  · intro s hs
    refine ⟨?_, ?_, ?_⟩ <;> simp [poolApply, hs]
  · intro ws h
    exact wakeOne_count_of_mem h
  · intro ws h
    exact wakeOne_of_not_mem h

/-- Witness instantiating `perform_work_then_complete_spec` at concrete
inputs. -/
theorem perform_work_then_complete_spec_witness :
    ((mcApply MCLabel.fire
        ⟨⟨true, OpState.Pending, 0⟩, [WaiterPc.waiting]⟩).op.workCount
      = 0 + 1 ∧
      (mcApply MCLabel.fire
        ⟨⟨true, OpState.Pending, 0⟩, [WaiterPc.waiting]⟩).op.state
        = termOf OpState.Pending OpState.Completed ∧
      (mcApply MCLabel.fire
        ⟨⟨true, OpState.Pending, 0⟩, [WaiterPc.waiting]⟩).waiters
        = wakeOne [WaiterPc.waiting]) ∧
    ((poolApply PoolLabel.perform
        ⟨⟨true, OpState.Pending, 0⟩, []⟩).op.workCount = 0 + 1 ∧
      (poolApply PoolLabel.perform
        ⟨⟨true, OpState.Pending, 0⟩, []⟩).op.state
        = termOf OpState.Pending OpState.Completed ∧
      (poolApply PoolLabel.perform
        ⟨⟨true, OpState.Pending, 0⟩, []⟩).waiters = wakeOne []) ∧
    (wakeOne [WaiterPc.waiting]).count WaiterPc.waiting + 1
      = ([WaiterPc.waiting] : List WaiterPc).count WaiterPc.waiting ∧
    wakeOne [WaiterPc.beforeCheck] = [WaiterPc.beforeCheck] :=
  ⟨perform_work_then_complete_spec.2.2.1
      ⟨⟨true, OpState.Pending, 0⟩, [WaiterPc.waiting]⟩ rfl,
    perform_work_then_complete_spec.2.2.2.1
      ⟨⟨true, OpState.Pending, 0⟩, []⟩ rfl,
    perform_work_then_complete_spec.2.2.2.2.1 [WaiterPc.waiting]
      (by decide),
    perform_work_then_complete_spec.2.2.2.2.2 [WaiterPc.beforeCheck]
      (by decide)⟩

/-- Counterexample to C7 as stated: `GetForegroundTaskRunner` inserts
into `foreground_runners` with the platform lock not held (its body has
no `GumV8PlatformLocker`). -/
theorem runner_registry_mutation_unlocked_cex :
    mutationsLocked guardedMutation getForegroundTaskRunnerMissActions
      = false := by
  decide

/-- C7 (amended): mutations of the outstanding-operation set
(`js_operations`) and of every operation's completion flag occur while
the platform lock is held, but `GetForegroundTaskRunner` mutates the
runner registry without holding the lock: the insert happens at lock
depth zero. -/
theorem lock_guarded_mutations_spec :
    mutationsLocked guardedMutation scheduleOnJSThreadDelayedActions
      = true ∧
    mutationsLocked guardedMutation releaseMainContextOperationActions
      = true ∧
    mutationsLocked guardedMutation mainPerformActions = true ∧
    mutationsLocked guardedMutation mainCancelActions = true ∧
    mutationsLocked guardedMutation poolPerformActions = true ∧
    getForegroundTaskRunnerMissActions.get? 1 = some PAct.insertRunnerMap ∧
    lockDepth (getForegroundTaskRunnerMissActions.take 1) = 0 := by
  decide

/-- The `foreground_runners` map of the platform, modelled as an
association list from isolate identity to runner identity, plus a fresh
counter standing for `std::make_shared` producing a brand-new object on
every call. -/
structure RunnerMap where
  runners : List (Nat × Nat)
  nextRunner : Nat
deriving DecidableEq, Repr

/-- Lookup of `foreground_runners[isolate]` (a null `shared_ptr` on a
missing key is represented by `none`). -/
def lookupRunner : List (Nat × Nat) → Nat → Option Nat
  | [], _ => none
  | (k, v) :: t, iso => if k = iso then some v else lookupRunner t iso

/-- Body of `GumV8Platform::GetForegroundTaskRunner` (lines 438-449):
look the isolate up; if no runner is there, create a fresh one
(`std::make_shared`) and store it; return the runner. -/
def getForegroundTaskRunner (p : RunnerMap) (iso : Nat) :
    Nat × RunnerMap :=
  match lookupRunner p.runners iso with
  | some r => (r, p)
  | none =>
      (p.nextRunner,
        ⟨(iso, p.nextRunner) :: p.runners, p.nextRunner + 1⟩)

/-- Well-formedness of the runner map: distinct isolates hold distinct
runner objects, and every stored runner id is below the fresh counter.
Holds for the empty map and is preserved by `getForegroundTaskRunner`. -/
def RunnerMapWF (p : RunnerMap) : Prop :=
  p.runners.Pairwise (fun a b => a.1 ≠ b.1 ∧ a.2 ≠ b.2) ∧
    ∀ pr ∈ p.runners, pr.2 < p.nextRunner

theorem lookupRunner_mem {l : List (Nat × Nat)} {iso r : Nat}
    (h : lookupRunner l iso = some r) : (iso, r) ∈ l := by
  induction l with
  | nil => simp [lookupRunner] at h
  | cons a t ih =>
    unfold lookupRunner at h
    by_cases hk : a.1 = iso
    · rw [show a = (a.1, a.2) from rfl] at h ⊢
      simp only [hk, if_pos rfl] at h
      cases h
      exact hk ▸ List.mem_cons_self _ _
    · rw [show a = (a.1, a.2) from rfl] at h
      simp only [if_neg hk] at h
      exact List.mem_cons_of_mem _ (ih h)

theorem lookupRunner_distinct {l : List (Nat × Nat)} {i j ri rj : Nat}
    (hp : l.Pairwise (fun a b => a.1 ≠ b.1 ∧ a.2 ≠ b.2))
    (hi : lookupRunner l i = some ri) (hj : lookupRunner l j = some rj)
    (hne : i ≠ j) : ri ≠ rj := by
  induction l with
  | nil => simp [lookupRunner] at hi
  | cons a t ih =>
    rw [show a = (a.1, a.2) from rfl] at hi hj
    unfold lookupRunner at hi hj
    rcases List.pairwise_cons.mp hp with ⟨ha, ht⟩
    by_cases hki : a.1 = i
    · simp only [hki, if_pos rfl] at hi
      cases hi
      have hkj : a.1 ≠ j := fun he => hne (hki ▸ he)
      simp only [hkj, if_neg hkj] at hj
      have := ha _ (lookupRunner_mem hj)
      simpa [hki] using this.2
    · simp only [if_neg hki] at hi
      by_cases hkj : a.1 = j
      · simp only [hkj, if_pos rfl] at hj
        cases hj
        have := ha _ (lookupRunner_mem hi)
        intro he
        exact this.2 he.symm
      · simp only [if_neg hkj] at hj
        exact ih ht hi hj

theorem lookupRunner_lt {l : List (Nat × Nat)} {iso r n : Nat}
    (hb : ∀ pr ∈ l, pr.2 < n) (h : lookupRunner l iso = some r) : r < n :=
  hb _ (lookupRunner_mem h)

theorem lookupRunner_none {l : List (Nat × Nat)} {iso : Nat}
    (h : lookupRunner l iso = none) : ∀ r, (iso, r) ∉ l := by
  induction l with
  | nil => intro r hm; cases hm
  | cons a t ih =>
    intro r hm
    unfold lookupRunner at h
    rw [show a = (a.1, a.2) from rfl] at h hm
    by_cases hk : a.1 = iso
    · simp [hk] at h
    · simp only [if_neg hk] at h
      rcases List.mem_cons.mp hm with h1 | h1
      · exact hk (congrArg Prod.fst h1).symm
      · exact ih h r h1

theorem getForegroundTaskRunner_wf (p : RunnerMap) (iso : Nat)
    (h : RunnerMapWF p) :
    RunnerMapWF (getForegroundTaskRunner p iso).2 := by
  unfold getForegroundTaskRunner
  rcases h with ⟨hp, hb⟩
  cases hl : lookupRunner p.runners iso with
  | some r => exact ⟨hp, hb⟩
  | none =>
    constructor
    · refine List.pairwise_cons.mpr ⟨?_, hp⟩
      intro pr hm
      constructor
      · intro he
        have he2 : iso = pr.1 := he
        exact lookupRunner_none hl pr.2 (by rw [he2]; exact hm)
      · intro he
        have he2 : p.nextRunner = pr.2 := he
        exact Nat.lt_irrefl _ (he2 ▸ hb _ hm)
    · intro pr hm
      rcases List.mem_cons.mp hm with h1 | h1
      · subst h1
        exact Nat.lt_succ_self _
      · exact Nat.lt_succ_of_lt (hb _ h1)

theorem getForegroundTaskRunner_hit {p : RunnerMap} {iso r : Nat}
    (h : lookupRunner p.runners iso = some r) :
    getForegroundTaskRunner p iso = (r, p) := by
  unfold getForegroundTaskRunner
  rw [h]

theorem getForegroundTaskRunner_miss {p : RunnerMap} {iso : Nat}
    (h : lookupRunner p.runners iso = none) :
    getForegroundTaskRunner p iso =
      (p.nextRunner,
        ⟨(iso, p.nextRunner) :: p.runners, p.nextRunner + 1⟩) := by
  unfold getForegroundTaskRunner
  rw [h]

/-- C8: `GetForegroundTaskRunner` memoizes one runner per isolate: a
repeated call for the same isolate returns the same runner and leaves the
registry unchanged; for two distinct isolates the returned runners are
distinct objects (given the registry well-formedness that holds from the
empty registry on); and well-formedness is preserved by every call. -/
theorem foreground_runner_memoized_spec :
    (∀ (p : RunnerMap) (iso : Nat),
        getForegroundTaskRunner (getForegroundTaskRunner p iso).2 iso
          = getForegroundTaskRunner p iso) ∧
    (∀ (p : RunnerMap) (iso1 iso2 : Nat), RunnerMapWF p → iso1 ≠ iso2 →
        (getForegroundTaskRunner
            (getForegroundTaskRunner p iso1).2 iso2).1
          ≠ (getForegroundTaskRunner p iso1).1) ∧
    (∀ (p : RunnerMap) (iso : Nat), RunnerMapWF p →
        RunnerMapWF (getForegroundTaskRunner p iso).2) ∧
    RunnerMapWF ⟨[], 0⟩ := by
  refine ⟨?_, ?_, getForegroundTaskRunner_wf,
    List.Pairwise.nil, fun pr hm => absurd hm (List.not_mem_nil pr)⟩
  · intro p iso
    cases hl : lookupRunner p.runners iso with
    | some r =>
      rw [getForegroundTaskRunner_hit hl]
      exact getForegroundTaskRunner_hit hl
    | none =>
      rw [getForegroundTaskRunner_miss hl]
      have h2 : lookupRunner
          ((iso, p.nextRunner) :: p.runners) iso = some p.nextRunner := by
        unfold lookupRunner
        simp
      exact getForegroundTaskRunner_hit
        (p := ⟨(iso, p.nextRunner) :: p.runners, p.nextRunner + 1⟩) h2
  · intro p iso1 iso2 hwf hne
    rcases hwf with ⟨hp, hb⟩
    cases h1 : lookupRunner p.runners iso1 with
    | some r1 =>
      rw [getForegroundTaskRunner_hit h1]
      cases h2 : lookupRunner p.runners iso2 with
      | some r2 =>
        rw [show (getForegroundTaskRunner p iso2).1 = r2 from
          by rw [getForegroundTaskRunner_hit h2]]
        exact lookupRunner_distinct hp h2 h1 hne.symm
      | none =>
        rw [show (getForegroundTaskRunner p iso2).1 = p.nextRunner from
          by rw [getForegroundTaskRunner_miss h2]]
        intro he
        exact Nat.lt_irrefl _ (he ▸ lookupRunner_lt hb h1)
    | none =>
      rw [getForegroundTaskRunner_miss h1]
      have hhead : lookupRunner
          ((iso1, p.nextRunner) :: p.runners) iso2
          = lookupRunner p.runners iso2 := by
        simp [lookupRunner, hne]
      cases h2 : lookupRunner p.runners iso2 with
      | some r2 =>
        have := getForegroundTaskRunner_hit
          (p := ⟨(iso1, p.nextRunner) :: p.runners, p.nextRunner + 1⟩)
          (by rw [hhead]; exact h2)
        rw [this]
        intro he
        have he2 : r2 = p.nextRunner := he
        exact Nat.lt_irrefl _ (he2 ▸ lookupRunner_lt hb h2)
      | none =>
        have := getForegroundTaskRunner_miss
          (p := ⟨(iso1, p.nextRunner) :: p.runners, p.nextRunner + 1⟩)
          (by rw [hhead]; exact h2)
        rw [this]
        exact Nat.succ_ne_self _

/-- Witness instantiating `foreground_runner_memoized_spec` on a concrete
registry and two distinct isolates. -/
theorem foreground_runner_memoized_spec_witness :
    (getForegroundTaskRunner
        (getForegroundTaskRunner ⟨[], 0⟩ 5).2 9).1
      ≠ (getForegroundTaskRunner (⟨[], 0⟩ : RunnerMap) 5).1 ∧
    RunnerMapWF (getForegroundTaskRunner ⟨[], 0⟩ 5).2 :=
  ⟨foreground_runner_memoized_spec.2.1 ⟨[], 0⟩ 5 9
      ⟨List.Pairwise.nil, fun pr hm => absurd hm (List.not_mem_nil pr)⟩
      (by decide),
    foreground_runner_memoized_spec.2.2.1 ⟨[], 0⟩ 5
      ⟨List.Pairwise.nil, fun pr hm => absurd hm (List.not_mem_nil pr)⟩⟩

/-- GLib source priority used for `Cancel`-able foreground timers in the
two-hop pool-delayed path. -/
def G_PRIORITY_HIGH : Int := -100

/-- GLib default source priority. -/
def G_PRIORITY_DEFAULT : Int := 0

/-- GLib low source priority, used for idle tasks. -/
def G_PRIORITY_LOW : Int := 300

/-- Priority and delay of the source a foreground-runner post attaches to
the JS main context. -/
structure SourceSpec where
  priority : Int
  delayMs : Nat
deriving DecidableEq, Repr

/-- Source created by `GumV8ForegroundTaskRunner::PostTask` (lines
628-636): `ScheduleOnJSThread` = zero delay, default priority. -/
def postTaskSource : SourceSpec :=
  ⟨G_PRIORITY_DEFAULT, 0⟩

/-- Source created by `GumV8ForegroundTaskRunner::PostIdleTask` (lines
649-657): `ScheduleOnJSThread (G_PRIORITY_LOW, ...)` = zero delay, low
priority. -/
def postIdleTaskSource : SourceSpec :=
  ⟨G_PRIORITY_LOW, 0⟩

/-- `GumV8Platform::MonotonicallyIncreasingTime` (lines 499-505):
`delta = g_get_monotonic_time () - start_time` in microseconds (the
monotonic clock never runs backwards past `start_time`, so `delta ≥ 0`
and we take `now` and `start` as naturals), then integer division by 1000
and floating division by 1000.0 — seconds with millisecond resolution. -/
def monotonicallyIncreasingTime (now start : Nat) : ℚ :=
  (((now - start) / 1000 : Nat) : ℚ) / 1000

/-- Deadline computed by `GumV8ForegroundTaskRunner::Run (IdleTask *)`
(lines 675-685): the monotonic clock at dispatch time plus one frame
budget of 1/60 second. -/
def idleTaskDeadline (now start : Nat) : ℚ :=
  monotonicallyIncreasingTime now start + 1 / 60

/-- `GumV8ForegroundTaskRunner::IdleTasksEnabled` (lines 659-663) and
`GumV8Platform::IdleTasksEnabled` (lines 493-497): both return `true`. -/
def idleTasksEnabled : Bool := true

/-- C9: `PostIdleTask` schedules at low priority; the wrapped invocation
passes the idle task a deadline equal to the monotonic clock at dispatch
time plus 1/60 second, which is never below the dispatch-time clock; and
idle tasks are always reported enabled. -/
theorem post_idle_task_spec :
    postIdleTaskSource.priority = G_PRIORITY_LOW ∧
    (∀ now start : Nat,
        idleTaskDeadline now start
          = monotonicallyIncreasingTime now start + 1 / 60) ∧
    (∀ now start : Nat,
        monotonicallyIncreasingTime now start ≤ idleTaskDeadline now start) ∧
    idleTasksEnabled = true := by
  refine ⟨rfl, fun _ _ => rfl, ?_, rfl⟩
  intro now start
  unfold idleTaskDeadline
  have h : (0 : ℚ) ≤ 1 / 60 := by norm_num
  linarith

/-- External calls made by `GumV8MemoryBackend`, in program order. -/
inductive MemEvent where
  | memAllocate (size : Nat) (exec : Bool) (result : Option Nat)
  | cloakAdd (base size : Nat)
  | memRelease (addr size : Nat) (success : Bool)
  | cloakRemove (base size : Nat)
deriving DecidableEq, Repr

/-- `GumV8MemoryBackend::Allocate` (lines 706-716), parametric in the
result of the external `gum_memory_allocate` call: on a non-null result
the range `[base, base+size)` is cloaked (`gum_cloak_add_range`) before
returning; on a null result nothing is cloaked. -/
def backendAllocate (allocResult : Option Nat) (size : Nat) (exec : Bool) :
    Option Nat × List MemEvent :=
  match allocResult with
  | some base =>
      (some base,
        [MemEvent.memAllocate size exec (some base),
          MemEvent.cloakAdd base size])
  | none => (none, [MemEvent.memAllocate size exec none])

/-- `GumV8MemoryBackend::Free` (lines 718-726), parametric in the result
of `gum_memory_release`: call `gum_memory_release` first, then on success
uncloak the range (`gum_cloak_remove_range`). -/
def backendFree (releaseSuccess : Bool) (addr size : Nat) :
    Bool × List MemEvent :=
  if releaseSuccess then
    (true,
      [MemEvent.memRelease addr size true, MemEvent.cloakRemove addr size])
  else (false, [MemEvent.memRelease addr size false])

/-- `GumV8MemoryBackend::Release` (lines 728-734): delegates to `Free`. -/
def backendRelease (releaseSuccess : Bool) (addr size : Nat) :
    Bool × List MemEvent :=
  backendFree releaseSuccess addr size

/-- Counterexample to C6 as stated: a successful `Free` calls
`gum_memory_release` first and de-registers the range from the cloak
afterwards — the de-registration does not happen before the memory is
released. -/
theorem free_uncloak_after_release_cex :
    (backendFree true 4096 16).2.head?
      = some (MemEvent.memRelease 4096 16 true) ∧
    (backendFree true 4096 16).2.indexOf (MemEvent.memRelease 4096 16 true)
      < (backendFree true 4096 16).2.indexOf
          (MemEvent.cloakRemove 4096 16) := by
  decide

/-- C6 (amended): a successful executable-memory `Allocate` registers
`[base, base+size)` with the cloak before returning; a failed `Allocate`
returns null and registers nothing; a successful `Free` (or `Release`)
de-registers exactly the freed range, immediately after the release call
(not before it); a failed `Free` de-registers nothing. -/
theorem allocate_cloak_pairing_spec :
    (∀ (ar : Option Nat) (size : Nat) (exec : Bool) (base : Nat),
        (backendAllocate ar size exec).1 = some base →
          (backendAllocate ar size exec).2
            = [MemEvent.memAllocate size exec (some base),
                MemEvent.cloakAdd base size]) ∧
    (∀ (size : Nat) (exec : Bool),
        (backendAllocate none size exec).1 = none ∧
        ∀ b sz, MemEvent.cloakAdd b sz ∉ (backendAllocate none size exec).2) ∧
    (∀ (rs : Bool) (addr size : Nat), (backendFree rs addr size).1 = rs) ∧
    (∀ (addr size : Nat),
        (backendFree true addr size).2
          = [MemEvent.memRelease addr size true,
              MemEvent.cloakRemove addr size]) ∧
    (∀ (addr size : Nat), ∀ b sz,
        MemEvent.cloakRemove b sz ∉ (backendFree false addr size).2) := by
  refine ⟨?_, ?_, ?_, fun _ _ => rfl, ?_⟩
  · intro ar size exec base h
    cases ar with
    | some b =>
      cases h
      rfl
    | none => cases h
  · intro size exec
    refine ⟨rfl, ?_⟩
    intro b sz hm
    simp [backendAllocate] at hm
  · intro rs addr size
    cases rs <;> rfl
  · intro addr size b sz hm
    simp [backendFree] at hm

/-- Witness instantiating `allocate_cloak_pairing_spec` at a concrete
successful allocation. -/
theorem allocate_cloak_pairing_spec_witness :
    (backendAllocate (some 4096) 32 true).2
      = [MemEvent.memAllocate 32 true (some 4096),
          MemEvent.cloakAdd 4096 32] :=
  allocate_cloak_pairing_spec.1 (some 4096) 32 true 4096 rfl

/-- C10: `GumV8MemoryBackend::Release` is observably identical to `Free`:
same success result and the same external call sequence (decommit, then
de-register on success), for every address, size and release outcome. -/
theorem release_equals_free_spec :
    ∀ (rs : Bool) (addr size : Nat),
      backendRelease rs addr size = backendFree rs addr size :=
  fun _ _ _ => rfl

/-- Work items that can be scheduled: a user function (identified by a
number) or the closure `[=]() { ScheduleOnThreadPool (f); }` that
`ScheduleOnThreadPoolDelayed` builds around it. -/
inductive Work where
  | user (f : Nat)
  | submitToPool (f : Nat)
deriving DecidableEq, Repr

/-- Scheduling state of the platform: a fresh operation-id counter
(standing for `std::make_shared` allocating a new operation object), the
sources attached to the JS main context (operation id, priority, delay in
milliseconds, work), and the jobs pushed on the worker pool (operation
id, work). -/
structure Sched where
  nextOp : Nat
  jsSources : List (Nat × Int × Nat × Work)
  poolJobs : List (Nat × Work)
deriving DecidableEq, Repr

/-- `GumV8Platform::ScheduleOnJSThreadDelayed` (lines 344-365): create a
source with the given delay and priority, allocate the operation, attach
the source to the JS main context, and return the operation's handle. -/
def scheduleOnJSThreadDelayed (delay : Nat) (priority : Int) (w : Work)
    (s : Sched) : Nat × Sched :=
  (s.nextOp,
    ⟨s.nextOp + 1, (s.nextOp, priority, delay, w) :: s.jsSources,
      s.poolJobs⟩)

/-- `GumV8Platform::ScheduleOnThreadPool` (lines 367-377): allocate a
pool operation, push the job on the worker pool, return the handle. -/
def scheduleOnThreadPool (w : Work) (s : Sched) : Nat × Sched :=
  (s.nextOp, ⟨s.nextOp + 1, s.jsSources, (s.nextOp, w) :: s.poolJobs⟩)

/-- `GumV8Platform::ScheduleOnThreadPoolDelayed` (lines 379-389): makes a
`GumV8ThreadPoolOperation` `op` that is never submitted to the pool (nor
anywhere else), schedules a high-priority foreground timer whose work is
"submit `f` to the pool now" into `child_op`, and then falls off the end
of the value-returning function with no `return` statement — the caller
receives no usable handle, modelled as `none`. -/
def scheduleOnThreadPoolDelayed (delay : Nat) (f : Nat) (s : Sched) :
    Option Nat × Sched :=
  let s1 : Sched := ⟨s.nextOp + 1, s.jsSources, s.poolJobs⟩
  let cs := scheduleOnJSThreadDelayed delay G_PRIORITY_HIGH
    (Work.submitToPool f) s1
  (none, cs.2)

/-- Dispatch of the foreground timer scheduled by the two-hop path: its
work `submitToPool f` runs `ScheduleOnThreadPool (f)` (line 387) and
discards the returned handle; the result is the id of the eventual pool
operation, which no one ever receives. -/
def fireSubmitToPool (f : Nat) (s : Sched) : Nat × Sched :=
  scheduleOnThreadPool (Work.user f) s

/-- C1: evaluation of the code at a failing input. On a fresh platform,
`ScheduleOnThreadPoolDelayed (100, f)` returns no handle (the function
has no `return` statement); at that point no pool job exists at all (the
`op` it allocated, id 0, was never submitted); when the timer (id 1)
fires, the eventual pool operation (id 2) is created — and the value the
caller got is not a handle to it. The claim (spec section 4.1) requires
the returned handle to represent the eventual pool operation; the code
does not return one, which the spec itself flags as a latent defect
(section 9). -/
theorem thread_pool_delayed_no_handle :
    (scheduleOnThreadPoolDelayed 100 7 ⟨0, [], []⟩).1 = none ∧
    (scheduleOnThreadPoolDelayed 100 7 ⟨0, [], []⟩).2.jsSources
      = [(1, G_PRIORITY_HIGH, 100, Work.submitToPool 7)] ∧
    (scheduleOnThreadPoolDelayed 100 7 ⟨0, [], []⟩).2.poolJobs = [] ∧
    (fireSubmitToPool 7
        (scheduleOnThreadPoolDelayed 100 7 ⟨0, [], []⟩).2).2.poolJobs
      = [(2, Work.user 7)] ∧
    (fireSubmitToPool 7
        (scheduleOnThreadPoolDelayed 100 7 ⟨0, [], []⟩).2).1 = 2 := by
  exact ⟨rfl, rfl, rfl, rfl, rfl⟩
